import Mathlib

/-!
Verification development for the material optimiser (`streamlit_app.py`).

The repository is a Streamlit app that, given a bill of materials of
required cut lengths per steel profile, plans how many standard stock bars
to buy and how to saw them.  Below we embed the algorithmic core —
`best_fit_decreasing`, `optimise_cuts`, the waste adjustment
`math.ceil(length * WASTE_FACTOR)`, the standard-length / stock tables and
the per-group classification body of `process_group` — as executable Lean
definitions, and prove or refute the specification claims about them.

Cut lengths and bar lengths are Python `int`s, embedded as `ℤ` (Python
integers are unbounded; offcuts can be negative, so `ℤ` rather than `ℕ`).
-/

namespace MaterialOptimiser

/-- Python `sorted(cuts, reverse=True)` on integer cut lengths.  For a list
of integers the descending value sequence is unique, so any correct
descending sort produces exactly the list Python's stable sort produces. -/
def pySortedDesc (l : List ℤ) : List ℤ := l.insertionSort (· ≥ ·)

/-- The inner `for bar in bars` loop of `best_fit_decreasing`
(streamlit_app.py lines 60-67): append `cut` to the first open bar whose
`remaining = bar_length - sum(bar)` satisfies `remaining >= cut`; `none`
when no open bar fits. -/
def placeFirst (bar_length cut : ℤ) : List (List ℤ) → Option (List (List ℤ))
  | [] => none
  | bar :: rest =>
    if cut ≤ bar_length - bar.sum then some ((bar ++ [cut]) :: rest)
    else (placeFirst bar_length cut rest).map (bar :: ·)

/-- Body of the outer `for cut in cuts` loop: place the cut in the first
fitting open bar, otherwise open a new bar `[cut]` at the end. -/
def bfdStep (bar_length : ℤ) (bars : List (List ℤ)) (cut : ℤ) : List (List ℤ) :=
  match placeFirst bar_length cut bars with
  | some bars' => bars'
  | none => bars ++ [[cut]]

/-- `best_fit_decreasing(cuts, bar_length)` (streamlit_app.py lines 57-70):
sort the cuts descending, then fold the placement step over them starting
from no open bars.  Note the source performs no oversize check: a cut
larger than `bar_length` simply opens its own bar. -/
def best_fit_decreasing (cuts : List ℤ) (bar_length : ℤ) : List (List ℤ) :=
  (pySortedDesc cuts).foldl (bfdStep bar_length) []

/-- `optimise_cuts(cut_lengths, std_length)` (streamlit_app.py lines 72-78).
With `std_length = None` the source returns `1, [0], [cut_lengths]` — a
single pseudo-bar holding the whole cut list (the local `total_length` on
line 74 is computed and discarded).  Otherwise it runs
`best_fit_decreasing` and reports `len(bars)`, the per-bar offcuts
`std_length - sum(bar)`, and the bar patterns. -/
def optimise_cuts (cut_lengths : List ℤ) (std_length : Option ℤ) :
    ℕ × List ℤ × List (List ℤ) :=
  match std_length with
  | none => (1, [0], [cut_lengths])
  | some std =>
    let bars := best_fit_decreasing cut_lengths std
    (bars.length, bars.map (fun bar => std - bar.sum), bars)

example : best_fit_decreasing [2060, 2060, 2060, 2060] 6000 =
    [[2060, 2060], [2060, 2060]] := by decide

example : optimise_cuts [7] (some 6) = (1, [-1], [[7]]) := by decide

example : optimise_cuts [5, 5] none = (1, [0], [[5, 5]]) := by decide

/-! ## Tables and per-group processing -/

/-- `STANDARD_LENGTHS.get(key)` (streamlit_app.py lines 10-33, 47; keys are
already upper-case so the `.upper()` normalisation is the identity on
them).  Python's `.get` returns `None` both for the `200PFC: None` entry
and for a missing key, so the embedded lookup returns `Option ℤ` with
`none` in both cases — exactly what every use site of the dictionary in
`process_group` observes. -/
def STANDARD_LENGTHS_get (key : String) : Option ℤ :=
  if key = "50X50X3SHS" then some 8000
  else if key = "100X50X3RHS" then some 7000
  else if key = "125PFC" then some 12000
  else if key = "75X50X3RHS" then some 8000
  else if key = "150PFC" then some 12000
  else if key = "150X50X5RHS" then some 8000
  else if key = "40X40X2.5SHS" then some 8000
  else if key = "40X40X3SHS" then some 8000
  else if key = "150X50X3RHS" then some 8000
  else if key = "65X35X2.5RHS" then some 8000
  else if key = "75X75X6EA" then some 9000
  else if key = "50X50X5EA" then some 9000
  else if key = "50X50X3EA" then some 9000
  else if key = "25X25X3EA" then some 9000
  else if key = "40X40X5EA" then some 7500
  else if key = "25X25X2SHS" then some 6500
  else if key = "25X25X2.5SHS" then some 6500
  else if key = "⌀6BAR" then some 6000
  else if key = "⌀12BAR" then some 6000
  else if key = "40X5FL(MS)" then some 6000
  else if key = "40X3FL(MS)" then some 6000
  else none

/-- `STOCK_LIST` (streamlit_app.py lines 35-43, 46; entries upper-cased,
which only affects `40x40x2.5RHS`-style lower-case letters — all entries
here are already the upper-cased forms). -/
def STOCK_LIST : List String :=
  ["100X50X3RHS", "75X50X3RHS", "40X40X2.5RHS", "65X35X2.5RHS",
   "40X40X5EA", "⌀6BAR", "⌀12BAR"]

/-- A value stored in the `overrides` dict.  The UI (lines 325-340) stores
either the string `"CUT"` or an `int`; the docstring of `process_group`
also mentions `None`, which line 111's
`int(std_override) if std_override is not None and ... else STANDARD_LENGTHS.get(...)`
routes back to the standard table. -/
inductive OverrideVal
  | CUT
  | intVal (n : ℤ)
  | noneVal
deriving DecidableEq

/-- The `overrides` dict: `none` models `desc_norm not in overrides`. -/
def Overrides : Type := String → Option OverrideVal

/-- Lines 105-115 of `process_group`: resolve `std_length` from the
session override when the key is present (the `"CUT"` marker gives `None`,
an integer gives itself, a stored `None` falls back to the table), and
from `STANDARD_LENGTHS.get` otherwise. -/
def resolveStd (desc_norm : String) (ov : Option OverrideVal) : Option ℤ :=
  match ov with
  | some .CUT => none
  | some (.intVal n) => some n
  | some .noneVal => STANDARD_LENGTHS_get desc_norm
  | none => STANDARD_LENGTHS_get desc_norm

/-- Executable substring test on character lists: `pat` occurs contiguously
inside the second list. -/
def listHasInfix (pat : List Char) : List Char → Bool
  | [] => pat.isEmpty
  | c :: rest => pat.isPrefixOf (c :: rest) || listHasInfix pat rest

/-- Python's substring test `"200PFC" in desc_norm`. -/
def contains200PFC (desc_norm : String) : Bool :=
  listHasInfix "200PFC".data desc_norm.data

/-- The warning f-string of line 128. -/
def warnMsg (desc_display : String) : String :=
  "No standard length found for " ++ desc_display ++
    ". Set a stock length before processing."

/-- A row appended to `buy_rows`.

* `unknownRow` is the placeholder appended on lines 121-129: every numeric
  cell reads `"UNKNOWN"`, and the row carries a `_warning` string (the UI
  later pops `_warning` into the warnings list but keeps the row in the
  BUY table).
* `planned` is the row of lines 157-164.  `stdDisplay` embeds
  `std_length or "CUT-TO-LENGTH"`: `none` when `std_length` is Python-falsy
  (`None` or `0`), `some n` otherwise.  The source displays
  `round(sum(offcuts)/len(offcuts), 1)` and `str(patterns)`; we keep the
  raw `offcuts` and `patterns` those display cells are computed from. -/
inductive BuyRow
  | unknownRow (description warning : String) (totalCuts : ℕ)
  | planned (description : String) (stdDisplay : Option ℤ) (totalCuts : ℕ)
      (barsRequired : ℕ) (offcuts : List ℤ) (patterns : List (List ℤ))
deriving DecidableEq

/-- A row appended to `check_rows`.

* `unknownStock`: lines 139-145, the `"UNKNOWN (no stock length set)"` case.
* `equiv`: lines 147-154; `stdOrOne` embeds the divisor `std_length or 1`
  of `bars_equiv = total_length / (std_length or 1)` (the source displays
  `round(bars_equiv, 2)`; we keep numerator and divisor). -/
inductive CheckRow
  | unknownStock (description : String) (totalLength : ℤ)
  | equiv (description : String) (totalLength : ℤ) (stdOrOne : ℤ)
deriving DecidableEq

/-- `std_length or "CUT-TO-LENGTH"` of line 159: Python-falsy `std_length`
(`None` or `0`) displays the cut-to-length marker, embedded as `none`. -/
def pyStdDisplay (std : Option ℤ) : Option ℤ :=
  match std with
  | none => none
  | some n => if n = 0 then none else some n

/-- `std_length or 1` of line 149. -/
def pyStdOrOne (std : Option ℤ) : ℤ :=
  match std with
  | none => 1
  | some n => if n = 0 then 1 else n

/-- The body of `process_group`'s per-group loop (streamlit_app.py lines
91-165) for one normalized description group.  `desc_norm` is the groupby
key (`normalise` of the descriptions), `desc_display` the first raw
description, and `cuts` the waste-adjusted cut list built on lines 95-102.
Returns the `(buy_rows, check_rows)` contribution of this group.  The
`default_stock_length` argument is the one `process_group` receives on
line 80; note that, despite the comment on line 104, the source never
reads it. -/
def process_group (desc_norm desc_display : String) (cuts : List ℤ)
    (overrides : Overrides) (default_stock_length : ℤ) :
    List BuyRow × List CheckRow :=
  -- line 92: `if not desc_norm: continue`
  if desc_norm = "" then ([], [])
  else
    let std0 := resolveStd desc_norm (overrides desc_norm)
    -- line 119: the unresolved-length warning path
    if std0 = none ∧ contains200PFC desc_norm = false ∧
        desc_norm ∉ STOCK_LIST ∧ overrides desc_norm = none then
      ([.unknownRow desc_display (warnMsg desc_display) cuts.length], [])
    else
      -- line 133: any key containing "200PFC" is forced to cut-to-length
      let std := if contains200PFC desc_norm then none else std0
      -- line 137: stock item without a usable length
      if desc_norm ∈ STOCK_LIST ∧ std = none then
        ([], [.unknownStock desc_display cuts.sum])
      -- line 147: stock item
      else if desc_norm ∈ STOCK_LIST then
        ([], [.equiv desc_display cuts.sum (pyStdOrOne std)])
      -- line 155: buy item, run the optimiser
      else
        let r := optimise_cuts cuts std
        ([.planned desc_display (pyStdDisplay std) cuts.length r.1 r.2.1 r.2.2],
         [])

example :
    process_group "100X50X3RHS" "100x50x3RHS" [1000]
      (fun k => if k = "100X50X3RHS" then some .CUT else none) 6000 =
      ([], [.unknownStock "100x50x3RHS" 1000]) := by decide

example :
    process_group "MYSTEEL" "MySteel" [500] (fun _ => none) 6000 =
      ([.unknownRow "MySteel" (warnMsg "MySteel") 1], []) := by decide

example :
    process_group "200PFC" "200 PFC" [1000, 2000]
      (fun k => if k = "200PFC" then some (.intVal 7000) else none) 6000 =
      ([.planned "200 PFC" none 2 1 [0] [[1000, 2000]]], []) := by decide

/-! ## Waste adjustment

`WASTE_FACTOR = 1.03` (line 7) is a Python `float`, i.e. an IEEE-754
binary64 value, and line 100 computes `math.ceil(length * WASTE_FACTOR)`
in binary64 arithmetic.  We embed that arithmetic exactly over `ℕ`:
binary64 numbers in the range of interest are rationals with denominator a
power of two, a product is the true product rounded to 53 significant bits
(round-to-nearest, ties-to-even), and `math.ceil` on the result is exact.
All quantities are scaled so they stay natural numbers. -/

/-- Fuel-driven base-2 logarithm: `ilog2go f n` is `⌊log₂ n⌋` whenever
`n ≤ f` (each step halves `n`, so `n` steps of fuel always suffice).
Structural recursion on the fuel keeps it kernel-reducible. -/
def ilog2go : ℕ → ℕ → ℕ
  | 0, _ => 0
  | f + 1, n => if n ≤ 1 then 0 else ilog2go f (n / 2) + 1

/-- `⌊log₂ n⌋` for `n ≥ 1` (and `0` at `0`). -/
def ilog2 (n : ℕ) : ℕ := ilog2go n n

/-- Round `n` to the nearest multiple of `2 ^ s`, ties to the even
multiple — the binary64 significand rounding rule. -/
def rne (n s : ℕ) : ℕ :=
  let step := 2 ^ s
  let q := n / step
  let r := n % step
  if 2 * r < step then q * step
  else if 2 * r > step then (q + 1) * step
  else if q % 2 = 0 then q * step else (q + 1) * step

/-- The integer significand of the binary64 value nearest `1.03`, scaled
by `2 ^ 52`: `1.03 * 2 ^ 52 = 4638707616191610.88` rounds to this, so the
stored `WASTE_FACTOR` is `4638707616191611 / 2 ^ 52`, slightly above
`103 / 100` (note `100 * 4638707616191611 = 103 * 2 ^ 52 + 12`). -/
def c103 : ℕ := 4638707616191611

/-- The binary64 value obtained from the integer `L` (Python
`float(row["length"])` for an integer-valued length): `L` rounded to 53
significant bits.  For `L < 2 ^ 53` this is `L` itself. -/
def floatOfNat (L : ℕ) : ℕ := if L = 0 then 0 else rne L (ilog2 L - 52)

/-- A binary64 product with `WASTE_FACTOR`, scaled by `2 ^ 52`: the exact
product `Lf * c103` (value `Lf * c103 / 2 ^ 52`) rounded to 53 significant
bits.  With `k = ⌊log₂ (Lf * c103)⌋`, the representable values around the
product are the multiples of `2 ^ (k - 52)` (scaled), whence the rounding
step. -/
def mulC103 (Lf : ℕ) : ℕ :=
  if Lf = 0 then 0 else rne (Lf * c103) (ilog2 (Lf * c103) - 52)

/-- `math.ceil(length * WASTE_FACTOR)` (streamlit_app.py line 100) for an
integer-valued `length = L`, in exact binary64 semantics: convert `L` to
binary64, multiply by the stored `1.03`, and take the ceiling of the
(scaled) result. -/
def adjust (L : ℕ) : ℕ := (mulC103 (floatOfNat L) + 2 ^ 52 - 1) / 2 ^ 52

/-- The exact-arithmetic value the spec claims: `⌈L * 1.03⌉ = ⌈103 L / 100⌉`. -/
def ceilExact (L : ℕ) : ℕ := (103 * L + 99) / 100

example : adjust 2000 = 2060 := by decide
example : adjust 100 = 103 := by decide
example : adjust 5900 = 6077 := by decide

/-! ## Helper lemmas about the packing fold -/

/-- A successful scan of the open bars adds `cut` to exactly one bar: the
total of the per-bar sums grows by `cut`. -/
theorem placeFirst_sum (bar_length cut : ℤ) :
    ∀ bars bars', placeFirst bar_length cut bars = some bars' →
      (bars'.map List.sum).sum = (bars.map List.sum).sum + cut := by
  intro bars
  induction bars with
  | nil => intro bars' h; simp [placeFirst] at h
  | cons bar rest ih =>
    intro bars' h
    rw [placeFirst] at h
    split at h
    · cases h
      simp [List.sum_append]
      ring
    · cases hrec : placeFirst bar_length cut rest with
      | none => rw [hrec] at h; simp at h
      | some rest' =>
        rw [hrec] at h
        cases h
        simp [ih rest' hrec]
        ring

/-- One step of the outer loop adds `cut` to the total, whether it is
placed in an open bar or opens a new one. -/
theorem bfdStep_sum (bar_length : ℤ) (bars : List (List ℤ)) (cut : ℤ) :
    ((bfdStep bar_length bars cut).map List.sum).sum =
      (bars.map List.sum).sum + cut := by
  rw [bfdStep]
  cases h : placeFirst bar_length cut bars with
  | none => simp
  | some bars' => exact placeFirst_sum bar_length cut bars bars' h

/-- Folding the placement step over any cut list adds exactly the cut
list's total. -/
theorem foldl_bfdStep_sum (bar_length : ℤ) :
    ∀ (cuts : List ℤ) (bars : List (List ℤ)),
      (((cuts.foldl (bfdStep bar_length) bars)).map List.sum).sum =
        (bars.map List.sum).sum + cuts.sum := by
  intro cuts
  induction cuts with
  | nil => intro bars; simp
  | cons c cs ih =>
    intro bars
    simp only [List.foldl_cons, List.sum_cons]
    rw [ih, bfdStep_sum]
    ring

/-- Sorting descending is a permutation, so it keeps the total. -/
theorem pySortedDesc_sum (l : List ℤ) : (pySortedDesc l).sum = l.sum :=
  (l.perm_insertionSort (· ≥ ·)).sum_eq

/-- Membership is invariant under the descending sort. -/
theorem mem_pySortedDesc {c : ℤ} {l : List ℤ} :
    c ∈ pySortedDesc l ↔ c ∈ l :=
  (l.perm_insertionSort (· ≥ ·)).mem_iff

/-- A successful placement keeps every bar within capacity: the receiving
bar satisfied `cut ≤ bar_length - sum(bar)` and the others are unchanged. -/
theorem placeFirst_capacity (bar_length cut : ℤ) :
    ∀ bars bars', placeFirst bar_length cut bars = some bars' →
      (∀ bar ∈ bars, bar.sum ≤ bar_length) →
      ∀ bar ∈ bars', bar.sum ≤ bar_length := by
  intro bars
  induction bars with
  | nil => intro bars' h; simp [placeFirst] at h
  | cons bar rest ih =>
    intro bars' h hinv
    rw [placeFirst] at h
    split at h
    next hfit =>
      cases h
      intro b hb
      rcases List.mem_cons.mp hb with hb | hb
      · subst hb; simp [List.sum_append]; linarith
      · exact hinv b (List.mem_cons_of_mem _ hb)
    next =>
      cases hrec : placeFirst bar_length cut rest with
      | none => rw [hrec] at h; simp at h
      | some rest' =>
        rw [hrec] at h
        cases h
        intro b hb
        rcases List.mem_cons.mp hb with hb | hb
        · subst hb; exact hinv b (List.mem_cons_self _ _)
        · exact ih rest' hrec (fun x hx => hinv x (List.mem_cons_of_mem _ hx)) b hb

/-- One outer-loop step keeps every bar within capacity provided the cut
itself fits an empty bar. -/
theorem bfdStep_capacity (bar_length cut : ℤ) (bars : List (List ℤ))
    (hcut : cut ≤ bar_length) (hinv : ∀ bar ∈ bars, bar.sum ≤ bar_length) :
    ∀ bar ∈ bfdStep bar_length bars cut, bar.sum ≤ bar_length := by
  rw [bfdStep]
  cases h : placeFirst bar_length cut bars with
  | none =>
    intro b hb
    rcases List.mem_append.mp hb with hb | hb
    · exact hinv b hb
    · simp at hb; subst hb; simpa using hcut
  | some bars' => exact placeFirst_capacity bar_length cut bars bars' h hinv

/-- Folding over cuts that each fit an empty bar keeps every bar within
capacity. -/
theorem foldl_bfdStep_capacity (bar_length : ℤ) :
    ∀ (cuts : List ℤ) (bars : List (List ℤ)),
      (∀ c ∈ cuts, c ≤ bar_length) →
      (∀ bar ∈ bars, bar.sum ≤ bar_length) →
      ∀ bar ∈ cuts.foldl (bfdStep bar_length) bars, bar.sum ≤ bar_length := by
  intro cuts
  induction cuts with
  | nil => intro bars _ hinv; simpa using hinv
  | cons c cs ih =>
    intro bars hcuts hinv
    simp only [List.foldl_cons]
    exact ih _ (fun x hx => hcuts x (List.mem_cons_of_mem _ hx))
      (bfdStep_capacity bar_length c bars (hcuts c (List.mem_cons_self _ _)) hinv)

/-! ## Claims C1-C4 -/

/-- C1 counterexample: the spec demands that `pack([bar_length + 1],
bar_length, 0)` raise `OversizeCutError`, but the source has no oversize
check at all — at `bar_length = 6` the oversize cut `7` is returned as a
normal packing, silently placed in its own bar with a negative offcut. -/
theorem c1_cex : optimise_cuts [7] (some 6) = (1, [-1], [[7]]) := by decide

/-- C1 amended: `optimise_cuts` with a non-null standard length never
fails; an oversize cut `bar_length + 1` is placed alone in its own bar —
not dropped and not truncated — and surfaces only as the negative offcut
`-1`. -/
theorem c1_amended (bar_length : ℤ) :
    optimise_cuts [bar_length + 1] (some bar_length) =
      (1, [-1], [[bar_length + 1]]) := by
  have hsort : pySortedDesc [bar_length + 1] = [bar_length + 1] := rfl
  have hplace : placeFirst bar_length (bar_length + 1) [] = none := rfl
  simp only [optimise_cuts, best_fit_decreasing, hsort, List.foldl_cons,
    List.foldl_nil, bfdStep, hplace]
  norm_num

/-- C2 counterexample: the spec requires `pack(cuts, None, kerf)` to
return one singleton bar per cut (`(len(cuts), [0]*len(cuts),
[[c] for c in cuts])`); at `cuts = [5, 5]` the source instead returns a
single pseudo-bar holding both cuts. -/
theorem c2_cex :
    optimise_cuts [5, 5] none ≠ (2, [0, 0], [[5], [5]]) := by decide

/-- C2 amended: with a null standard length the source returns `(1, [0],
[cuts])` — `bars_used` is always `1`, there is a single offcut `0`, and
the one pattern is the whole cut list; this path never errors (the
function is total). -/
theorem c2_amended (cuts : List ℤ) :
    optimise_cuts cuts none = (1, [0], [cuts]) := rfl

/-- C3 counterexample: the capacity invariant `sum(cuts in bar) ≤
bar_length` is claimed for every cut list, but with the oversize cut `10`
against `bar_length = 6` the produced bar `[10]` exceeds the bar length
(equivalently, the reported offcut `-4` is negative). -/
theorem c3_cex :
    best_fit_decreasing [10] 6 = [[10]] ∧
      (optimise_cuts [10] (some 6)).2.1 = [-4] ∧ ¬ (0 : ℤ) ≤ -4 := by decide

/-- C3 amended: provided every cut is at most `bar_length` (the source
never checks this, so it is a genuine hypothesis), every bar produced by
`best_fit_decreasing` satisfies `sum(cuts in bar) ≤ bar_length`, and
equivalently every offcut reported by `optimise_cuts` is non-negative.
(The source charges no kerf, so the kerf overhead is 0.) -/
theorem c3_amended (cuts : List ℤ) (bar_length : ℤ)
    (hfit : ∀ c ∈ cuts, c ≤ bar_length) :
    (∀ bar ∈ best_fit_decreasing cuts bar_length, bar.sum ≤ bar_length) ∧
      (∀ o ∈ (optimise_cuts cuts (some bar_length)).2.1, 0 ≤ o) := by
  have hbars : ∀ bar ∈ best_fit_decreasing cuts bar_length,
      bar.sum ≤ bar_length := by
    apply foldl_bfdStep_capacity
    · intro c hc; exact hfit c (mem_pySortedDesc.mp hc)
    · intro b hb; simp at hb
  refine ⟨hbars, ?_⟩
  intro o ho
  simp only [optimise_cuts, List.mem_map] at ho
  obtain ⟨bar, hbar, rfl⟩ := ho
  have := hbars bar hbar
  linarith

/-- C3 witness: the amended invariant at a concrete input. -/
theorem c3_witness :
    (∀ bar ∈ best_fit_decreasing [2060, 2060, 2060, 2060] 6000,
        bar.sum ≤ 6000) ∧
      (∀ o ∈ (optimise_cuts [2060, 2060, 2060, 2060] (some 6000)).2.1,
        0 ≤ o) :=
  c3_amended [2060, 2060, 2060, 2060] 6000 (by decide)

/-- A successful placement inserts `cut` into the flattened bar contents
and moves nothing else. -/
theorem placeFirst_flatten_perm (bar_length cut : ℤ) :
    ∀ bars bars', placeFirst bar_length cut bars = some bars' →
      bars'.flatten.Perm (cut :: bars.flatten) := by
  intro bars
  induction bars with
  | nil => intro bars' h; simp [placeFirst] at h
  | cons bar rest ih =>
    intro bars' h
    rw [placeFirst] at h
    split at h
    · cases h
      simp only [List.flatten_cons, List.append_assoc]
      have h1 : (bar ++ ([cut] ++ rest.flatten)).Perm
          (([cut] ++ bar) ++ rest.flatten) := by
        rw [← List.append_assoc]
        exact (List.perm_append_comm).append_right _
      simpa using h1
    · cases hrec : placeFirst bar_length cut rest with
      | none => rw [hrec] at h; simp at h
      | some rest' =>
        rw [hrec] at h
        cases h
        simp only [List.flatten_cons]
        exact ((ih rest' hrec).append_left bar).trans List.perm_middle

/-- One outer-loop step inserts exactly `cut` into the flattened bars. -/
theorem bfdStep_flatten_perm (bar_length : ℤ) (bars : List (List ℤ)) (cut : ℤ) :
    (bfdStep bar_length bars cut).flatten.Perm (cut :: bars.flatten) := by
  rw [bfdStep]
  cases h : placeFirst bar_length cut bars with
  | none =>
    simp only [List.flatten_append, List.flatten_cons, List.flatten_nil,
      List.append_nil]
    exact (List.perm_append_comm).trans (by simp)
  | some bars' => exact placeFirst_flatten_perm bar_length cut bars bars' h

/-- Folding the placement step inserts exactly the processed cuts. -/
theorem foldl_bfdStep_flatten_perm (bar_length : ℤ) :
    ∀ (cuts : List ℤ) (bars : List (List ℤ)),
      ((cuts.foldl (bfdStep bar_length) bars).flatten).Perm
        (cuts ++ bars.flatten) := by
  intro cuts
  induction cuts with
  | nil => intro bars; simp
  | cons c cs ih =>
    intro bars
    simp only [List.foldl_cons, List.cons_append]
    have h1 := ih (bfdStep bar_length bars c)
    have h2 := (bfdStep_flatten_perm bar_length bars c).append_left cs
    exact (h1.trans h2).trans List.perm_middle

/-- The flattened packing is a permutation of the input cut list. -/
theorem best_fit_decreasing_flatten_perm (cuts : List ℤ) (bar_length : ℤ) :
    ((best_fit_decreasing cuts bar_length).flatten).Perm cuts := by
  have h := foldl_bfdStep_flatten_perm bar_length (pySortedDesc cuts) []
  simp only [List.flatten_nil, List.append_nil] at h
  exact h.trans (cuts.perm_insertionSort (· ≥ ·))

/-- C4 confirmed: conservation.  For every cut list and every standard
length (null or not), the concatenation of the returned patterns is a
permutation of the input cut multiset — no cut lost or duplicated — and in
particular the per-bar sums add up to the input total. -/
theorem c4_conservation (cuts : List ℤ) (std_length : Option ℤ) :
    (((optimise_cuts cuts std_length).2.2).flatten).Perm cuts ∧
      (((optimise_cuts cuts std_length).2.2).map List.sum).sum = cuts.sum := by
  constructor
  · cases std_length with
    | none => simp [optimise_cuts]
    | some std => exact best_fit_decreasing_flatten_perm cuts std
  · cases std_length with
    | none => simp [optimise_cuts]
    | some std =>
      simp only [optimise_cuts, best_fit_decreasing]
      rw [foldl_bfdStep_sum, pySortedDesc_sum]
      simp

/-! ## Claim C5: the algorithm is decreasing-order first-fit

Spec-side model, written from the spec's words (section 4.4 of the spec):
maintain an ordered list of open bars, each tracking its *remaining
capacity*; for each cut in descending order, place it into the first bar
whose remaining capacity is at least the cut length plus kerf if the bar
is non-empty; otherwise open a new bar initialised to `bar_length` (no
kerf charged for the first cut). -/

/-- The capacity a cut needs in a bar with current pattern `pat`: the cut
length, plus the kerf when the bar already holds a cut. -/
def specNeed (kerf cut : ℤ) (pat : List ℤ) : ℤ :=
  cut + (if pat = [] then 0 else kerf)

/-- Spec-side placement scan over open bars, each a pair
`(remaining capacity, pattern so far)`. -/
def ffdPlaceSpec (kerf cut : ℤ) :
    List (ℤ × List ℤ) → Option (List (ℤ × List ℤ))
  | [] => none
  | b :: rest =>
    if specNeed kerf cut b.2 ≤ b.1 then
      some ((b.1 - specNeed kerf cut b.2, b.2 ++ [cut]) :: rest)
    else (ffdPlaceSpec kerf cut rest).map (b :: ·)

/-- Spec-side step: place in the first fitting bar, else open a new bar
initialised to `bar_length` holding just this cut. -/
def ffdStepSpec (bar_length kerf : ℤ) (bars : List (ℤ × List ℤ)) (cut : ℤ) :
    List (ℤ × List ℤ) :=
  match ffdPlaceSpec kerf cut bars with
  | some bars' => bars'
  | none => bars ++ [(bar_length - cut, [cut])]

/-- Decreasing-order first-fit as the spec words it: sort descending, fold
the placement step, return the bar patterns in creation order. -/
def first_fit_decreasing_spec (cuts : List ℤ) (bar_length kerf : ℤ) :
    List (List ℤ) :=
  ((pySortedDesc cuts).foldl (ffdStepSpec bar_length kerf) []).map Prod.snd

/-- Invariant tying the spec state to the code state: every open bar's
tracked remaining capacity equals `bar_length` minus its pattern's sum. -/
def TracksRemaining (bar_length : ℤ) (sb : List (ℤ × List ℤ)) : Prop :=
  ∀ b ∈ sb, b.1 = bar_length - b.2.sum

theorem ffdPlaceSpec_equiv (bar_length cut : ℤ) :
    ∀ sb : List (ℤ × List ℤ), TracksRemaining bar_length sb →
      placeFirst bar_length cut (sb.map Prod.snd) =
        (ffdPlaceSpec 0 cut sb).map (List.map Prod.snd) := by
  intro sb
  induction sb with
  | nil => intro _; simp [placeFirst, ffdPlaceSpec]
  | cons b rest ih =>
    intro htr
    have hb : b.1 = bar_length - b.2.sum := htr b (List.mem_cons_self _ _)
    have hneed : specNeed 0 cut b.2 = cut := by
      simp [specNeed]
    simp only [List.map_cons, placeFirst, ffdPlaceSpec, hneed, hb]
    split
    · simp
    · rw [ih (fun x hx => htr x (List.mem_cons_of_mem _ hx))]
      cases ffdPlaceSpec 0 cut rest <;> simp

theorem ffdPlaceSpec_tracks (bar_length cut : ℤ) :
    ∀ sb sb' : List (ℤ × List ℤ), TracksRemaining bar_length sb →
      ffdPlaceSpec 0 cut sb = some sb' →
      TracksRemaining bar_length sb' := by
  intro sb
  induction sb with
  | nil => intro sb' _ h; simp [ffdPlaceSpec] at h
  | cons b rest ih =>
    intro sb' htr h
    have hb : b.1 = bar_length - b.2.sum := htr b (List.mem_cons_self _ _)
    rw [ffdPlaceSpec] at h
    split at h
    · cases h
      intro x hx
      rcases List.mem_cons.mp hx with hx | hx
      · subst hx
        simp [specNeed, hb, List.sum_append]
        ring
      · exact htr x (List.mem_cons_of_mem _ hx)
    · cases hrec : ffdPlaceSpec 0 cut rest with
      | none => rw [hrec] at h; simp at h
      | some rest' =>
        rw [hrec] at h
        cases h
        intro x hx
        rcases List.mem_cons.mp hx with hx | hx
        · subst hx; exact hb
        · exact ih rest' (fun y hy => htr y (List.mem_cons_of_mem _ hy)) hrec x hx

theorem ffdStepSpec_equiv (bar_length cut : ℤ) (sb : List (ℤ × List ℤ))
    (htr : TracksRemaining bar_length sb) :
    bfdStep bar_length (sb.map Prod.snd) cut =
        (ffdStepSpec bar_length 0 sb cut).map Prod.snd ∧
      TracksRemaining bar_length (ffdStepSpec bar_length 0 sb cut) := by
  rw [bfdStep, ffdStepSpec, ffdPlaceSpec_equiv bar_length cut sb htr]
  cases h : ffdPlaceSpec 0 cut sb with
  | none =>
    refine ⟨by simp, ?_⟩
    intro x hx
    rcases List.mem_append.mp hx with hx | hx
    · exact htr x hx
    · simp at hx; subst hx; simp
  | some sb' => exact ⟨rfl, ffdPlaceSpec_tracks bar_length cut sb sb' htr h⟩

theorem foldl_ffdStepSpec_equiv (bar_length : ℤ) :
    ∀ (cuts : List ℤ) (sb : List (ℤ × List ℤ)),
      TracksRemaining bar_length sb →
      cuts.foldl (bfdStep bar_length) (sb.map Prod.snd) =
        (cuts.foldl (ffdStepSpec bar_length 0) sb).map Prod.snd := by
  intro cuts
  induction cuts with
  | nil => intro sb _; simp
  | cons c cs ih =>
    intro sb htr
    obtain ⟨heq, htr'⟩ := ffdStepSpec_equiv bar_length c sb htr
    simp only [List.foldl_cons, heq]
    exact ih _ htr'

/-- C5 confirmed: the packing algorithm of the source *is* the
decreasing-order first-fit of the spec with kerf 0 (the source charges no
kerf): the cuts are sorted into a descending permutation of the input, the
code's bar patterns coincide with the spec-side remaining-capacity model
on every input, and the spec's concrete example
`pack([2060, 2060, 2060, 2060], 6000, 0)` yields two bars of two cuts
with offcuts `[1880, 1880]`. -/
theorem c5_decreasing_first_fit :
    (∀ (cuts : List ℤ) (bar_length : ℤ),
        best_fit_decreasing cuts bar_length =
          first_fit_decreasing_spec cuts bar_length 0) ∧
      (∀ l : List ℤ, (pySortedDesc l).Sorted (· ≥ ·) ∧ (pySortedDesc l).Perm l) ∧
      optimise_cuts [2060, 2060, 2060, 2060] (some 6000) =
        (2, [1880, 1880], [[2060, 2060], [2060, 2060]]) := by
  refine ⟨?_, ?_, by decide⟩
  · intro cuts bar_length
    have h := foldl_ffdStepSpec_equiv bar_length (pySortedDesc cuts) []
      (by intro x hx; simp at hx)
    simpa [best_fit_decreasing, first_fit_decreasing_spec] using h
  · intro l
    exact ⟨l.sorted_insertionSort (· ≥ ·), l.perm_insertionSort (· ≥ ·)⟩

/-! ## Claims C6-C8, C10: per-group classification -/

/-- No stock-list key contains the substring `200PFC`. -/
theorem stock_not_200PFC : ∀ k ∈ STOCK_LIST, contains200PFC k = false := by
  decide

/-- C6 counterexample: for the stock-set material `100X50X3RHS` with an
explicit `CUT` override, the source emits a CHECK row (`"UNKNOWN (no
stock length set)"`, lines 137-145) and no BUY row — stock-set membership
routes the group away from the BUY table even though the resolved policy
is cut-to-length, contradicting "the cut-to-length marker always
overrides stock-check routing". -/
theorem c6_cex :
    process_group "100X50X3RHS" "100x50x3RHS" [1000]
        (fun k => if k = "100X50X3RHS" then some OverrideVal.CUT else none)
        6000 =
      ([], [CheckRow.unknownStock "100x50x3RHS" 1000]) ∧
    "100X50X3RHS" ∈ STOCK_LIST := by decide

/-- C6 amended: a `CUT` override yields a BUY line marked CUT-TO-LENGTH
only when the key is *not* in the stock set; for a stock-set key the same
override routes the group to a CHECK row marked unknown — in this source,
stock-set membership takes precedence over the cut-to-length marker. -/
theorem c6_amended (key disp : String) (cuts : List ℤ) (ov : Overrides)
    (d : ℤ) (hcut : ov key = some OverrideVal.CUT) (hne : key ≠ "") :
    process_group key disp cuts ov d =
      if key ∈ STOCK_LIST then ([], [CheckRow.unknownStock disp cuts.sum])
      else ([BuyRow.planned disp none cuts.length 1 [0] [cuts]], []) := by
  by_cases hk : key ∈ STOCK_LIST <;>
    simp [process_group, resolveStd, hcut, hne, hk, optimise_cuts,
      pyStdDisplay]

/-- C6 witness: the amended statement at the non-stock key `50X50X3SHS`
with a `CUT` override (BUY line marked CUT-TO-LENGTH). -/
theorem c6_witness :
    process_group "50X50X3SHS" "50x50x3 SHS" [1200, 1200]
        (fun k => if k = "50X50X3SHS" then some OverrideVal.CUT else none)
        6000 =
      if "50X50X3SHS" ∈ STOCK_LIST then
        ([], [CheckRow.unknownStock "50x50x3 SHS" 2400])
      else
        ([BuyRow.planned "50x50x3 SHS" none 2 1 [0] [[1200, 1200]]], []) := by
  exact c6_amended _ _ _ _ _ (by decide) (by decide)

/-- C7 counterexample: a material with no standard-table length, no
override and no usable default is *not* excluded from the BUY table — the
source appends a placeholder row with `"UNKNOWN"` cells (lines 121-129)
that stays in `buy_rows` (the UI only pops its `_warning` string), so the
group contributes one BUY row, not zero. -/
theorem c7_cex :
    process_group "MYSTEEL" "MySteel" [500] (fun _ => none) 6000 =
        ([BuyRow.unknownRow "MySteel" (warnMsg "MySteel") 1], []) ∧
      (process_group "MYSTEEL" "MySteel" [500] (fun _ => none) 6000).1 ≠
        [] := by decide

/-- C7 amended: for a group with no standard-table length, no session
override and not in the stock set (and a non-empty key), processing emits
the unresolved-length warning and zero CHECK rows, but contributes one
placeholder BUY row with `"UNKNOWN"` cells carrying that warning — the
group is excluded from the cutting-plan computation, not from the BUY
table; the configured global default plays no role. -/
theorem c7_amended (key disp : String) (cuts : List ℤ) (ov : Overrides)
    (d : ℤ) (hov : ov key = none) (hstd : STANDARD_LENGTHS_get key = none)
    (h200 : contains200PFC key = false) (hstock : key ∉ STOCK_LIST)
    (hne : key ≠ "") :
    process_group key disp cuts ov d =
      ([BuyRow.unknownRow disp (warnMsg disp) cuts.length], []) := by
  simp [process_group, resolveStd, hov, hstd, h200, hstock, hne]

/-- C7 witness: the amended statement at a concrete unknown material. -/
theorem c7_witness :
    process_group "MYSTEEL" "MySteel" [500, 700] (fun _ => none) 9999 =
      ([BuyRow.unknownRow "MySteel" (warnMsg "MySteel") 2], []) := by
  exact c7_amended _ _ _ _ _ (by decide) (by decide) (by decide) (by decide)
    (by decide)

/-- C8: the claim says the configured global default length
(`default_stock_length`) is used as the bar length when no override and no
standard-table entry exist, per the resolution order the source's own
comment on line 104 states (`overrides -> STANDARD_LENGTHS ->
default_stock_length`).  The code never reads `default_stock_length`:
the result of `process_group` is identical for every default (first
conjunct, definitional), and a material with no override and no table
entry takes the UNKNOWN-warning path for every configured default instead
of being packed against it (second conjunct). -/
theorem c8_default_never_used :
    (∀ (key disp : String) (cuts : List ℤ) (ov : Overrides) (d d' : ℤ),
        process_group key disp cuts ov d = process_group key disp cuts ov d') ∧
      (∀ d : ℤ, process_group "MYSTEEL" "MySteel" [500] (fun _ => none) d =
        ([BuyRow.unknownRow "MySteel" (warnMsg "MySteel") 1], [])) := by
  refine ⟨fun _ _ _ _ _ _ => rfl, fun d => ?_⟩
  simp [process_group, resolveStd, STANDARD_LENGTHS_get, contains200PFC,
    listHasInfix, STOCK_LIST, warnMsg]

/-- C10 confirmed: any group whose normalized key contains `200PFC` is
forced to a null bar length after override resolution (line 133) — even
under an explicit numeric session override (`ov` is arbitrary here) — and
is always emitted as a single BUY line marked CUT-TO-LENGTH (`stdDisplay =
none`) with one pseudo-bar holding all cuts; it never takes the
unknown-length warning path (line 119 explicitly exempts `200PFC`) and
never produces a CHECK row (no stock-list key contains `200PFC`). -/
theorem c10_200PFC_forced_cut (key disp : String) (cuts : List ℤ)
    (ov : Overrides) (d : ℤ) (h200 : contains200PFC key = true)
    (hne : key ≠ "") :
    process_group key disp cuts ov d =
      ([BuyRow.planned disp none cuts.length 1 [0] [cuts]], []) := by
  have hstock : key ∉ STOCK_LIST := by
    intro hk
    have := stock_not_200PFC key hk
    rw [h200] at this
    cases this
  simp [process_group, resolveStd, h200, hstock, hne, optimise_cuts,
    pyStdDisplay]

/-- C10 witness: the key `200PFC` itself, under an explicit numeric
override of 7000 mm, still comes out as a CUT-TO-LENGTH BUY line. -/
theorem c10_witness :
    process_group "200PFC" "200 PFC" [1000, 2000]
        (fun k => if k = "200PFC" then some (OverrideVal.intVal 7000) else none)
        6000 =
      ([BuyRow.planned "200 PFC" none 2 1 [0] [[1000, 2000]]], []) := by
  exact c10_200PFC_forced_cut _ _ _ _ _ (by decide) (by decide)

/-! ## Claim C9: waste adjustment under binary64 arithmetic -/

/-- The fuel-driven logarithm is correct once the fuel covers the input. -/
theorem ilog2go_correct :
    ∀ f n, 1 ≤ n → n ≤ f →
      2 ^ ilog2go f n ≤ n ∧ n < 2 ^ (ilog2go f n + 1) := by
  intro f
  induction f with
  | zero => intro n h1 h2; omega
  | succ f ih =>
    intro n h1 h2
    rw [ilog2go]
    by_cases hn : n ≤ 1
    · have : n = 1 := by omega
      subst this
      simp
    · rw [if_neg hn]
      have hrec := ih (n / 2) (by omega) (by omega)
      obtain ⟨hl, hu⟩ := hrec
      constructor
      · calc 2 ^ (ilog2go f (n / 2) + 1) = 2 ^ ilog2go f (n / 2) * 2 := by ring
          _ ≤ n / 2 * 2 := Nat.mul_le_mul_right 2 hl
          _ ≤ n := by omega
      · have : n / 2 + 1 ≤ 2 ^ (ilog2go f (n / 2) + 1) := hu
        calc n < (n / 2) * 2 + 2 := by omega
          _ ≤ 2 ^ (ilog2go f (n / 2) + 1) * 2 := by
              have : n / 2 + 1 ≤ 2 ^ (ilog2go f (n / 2) + 1) := hu
              omega
          _ = 2 ^ (ilog2go f (n / 2) + 1 + 1) := by ring

/-- `ilog2` computes the floor base-2 logarithm. -/
theorem ilog2_correct (n : ℕ) (h : 1 ≤ n) :
    2 ^ ilog2 n ≤ n ∧ n < 2 ^ (ilog2 n + 1) :=
  ilog2go_correct n n h le_rfl

/-- Round-to-nearest error bound, in doubled form to stay in `ℕ`:
the rounded value is within half a step of the input. -/
theorem rne_err (n s : ℕ) :
    2 * rne n s ≤ 2 * n + 2 ^ s ∧ 2 * n ≤ 2 * rne n s + 2 ^ s := by
  rw [rne]
  have hstep : 0 < 2 ^ s := Nat.pos_pow_of_pos s (by norm_num)
  have hmod : n / 2 ^ s * 2 ^ s + n % 2 ^ s = n := by
    rw [Nat.mul_comm]; exact Nat.div_add_mod n (2 ^ s)
  have hr : n % 2 ^ s < 2 ^ s := Nat.mod_lt _ hstep
  have hq : (n / 2 ^ s + 1) * 2 ^ s = n / 2 ^ s * 2 ^ s + 2 ^ s := by ring
  split_ifs <;> omega

/-- When the remainder is strictly below half a step, `rne` rounds down
to the floor multiple. -/
theorem rne_down (n s : ℕ) (h : 2 * (n % 2 ^ s) < 2 ^ s) :
    rne n s + n % 2 ^ s = n := by
  rw [rne]
  have hmod : n / 2 ^ s * 2 ^ s + n % 2 ^ s = n := by
    rw [Nat.mul_comm]; exact Nat.div_add_mod n (2 ^ s)
  split_ifs <;> omega

/-- Rounding with step `2 ^ 0 = 1` is the identity. -/
theorem rne_zero (n : ℕ) : rne n 0 = n := by
  have h := rne_down n 0 (by simp [Nat.mod_one])
  simpa [Nat.mod_one] using h

/-- Integers below `2 ^ 53` are exactly representable in binary64. -/
theorem floatOfNat_small (L : ℕ) (h : L < 2 ^ 53) : floatOfNat L = L := by
  rw [floatOfNat]
  by_cases hL : L = 0
  · simp [hL]
  · rw [if_neg hL]
    have h1 : 1 ≤ L := Nat.one_le_iff_ne_zero.mpr hL
    obtain ⟨hl, _⟩ := ilog2_correct L h1
    have hklt : ilog2 L < 53 := by
      have : 2 ^ ilog2 L < 2 ^ 53 := lt_of_le_of_lt hl h
      exact (Nat.pow_lt_pow_iff_right (by norm_num)).mp this
    have : ilog2 L - 52 = 0 := by omega
    rw [this, rne_zero]

/-- Ceiling-division characterisation: if `M` lies in `(I*T, (I+1)*T]`
then `⌈M / T⌉ = I + 1`. -/
theorem ceil_div_between (I T M : ℕ) (hT : 0 < T) (h1 : I * T < M)
    (h2 : M ≤ (I + 1) * T) : (M + T - 1) / T = I + 1 := by
  apply Nat.div_eq_of_lt_le
  · calc (I + 1) * T = I * T + T := by ring
      _ ≤ M + T - 1 := by omega
  · have : (I + 1 + 1) * T = (I + 1) * T + T := by ring
    omega

set_option maxHeartbeats 1000000 in
/-- C9 amended: on the whole realistic input range `1 ≤ L ≤ 10 ^ 13` the
binary64 computation `math.ceil(L * 1.03)` agrees with the exact rational
ceiling `⌈103 L / 100⌉`, and is at least `L`.  (Beyond roughly `2 ^ 53 / 103`
the float rounding can cross an integer boundary and the identity fails —
see the counterexample.) -/
theorem c9_amended (L : ℕ) (h1 : 1 ≤ L) (h2 : L ≤ 10 ^ 13) :
    adjust L = ceilExact L ∧ L ≤ adjust L := by
  have hL0 : L ≠ 0 := by omega
  have hfl : floatOfNat L = L := floatOfNat_small L (by
    calc L ≤ 10 ^ 13 := h2
      _ < 2 ^ 53 := by norm_num)
  set N : ℕ := L * c103 with hN
  have hN1 : 1 ≤ N := by
    have h := Nat.mul_le_mul h1 (show 1 ≤ c103 by norm_num [c103])
    simpa [hN] using h
  obtain ⟨hkl, hku⟩ := ilog2_correct N hN1
  set k : ℕ := ilog2 N with hk
  have h52k : 52 ≤ k := by
    by_contra hcon
    push_neg at hcon
    have hklt : k + 1 ≤ 52 := by omega
    have hNlt : N < 2 ^ 52 :=
      lt_of_lt_of_le hku (Nat.pow_le_pow_right (by norm_num) hklt)
    have hNge : 2 ^ 52 ≤ N := by
      calc (2:ℕ) ^ 52 ≤ c103 := by norm_num [c103]
        _ = 1 * c103 := (Nat.one_mul _).symm
        _ ≤ L * c103 := Nat.mul_le_mul_right _ h1
        _ = N := hN.symm
    omega
  set s : ℕ := k - 52 with hs
  have hks : k = s + 52 := by omega
  have hsl : 2 ^ s * 2 ^ 52 ≤ N := by
    calc 2 ^ s * 2 ^ 52 = 2 ^ (s + 52) := (pow_add 2 s 52).symm
      _ = 2 ^ k := by rw [hks]
      _ ≤ N := hkl
  have hsu : N < 2 ^ s * 2 ^ 53 := by
    calc N < 2 ^ (k + 1) := hku
      _ = 2 ^ (s + 53) := by rw [hks]
      _ = 2 ^ s * 2 ^ 53 := pow_add 2 s 53
  have hs52 : s ≤ 52 := by
    have hNb : N < 2 ^ 105 := by
      calc N = L * c103 := hN
        _ ≤ 10 ^ 13 * c103 := Nat.mul_le_mul_right _ h2
        _ < 2 ^ 105 := by norm_num [c103]
    have h2k : (2:ℕ) ^ k < 2 ^ 105 := lt_of_le_of_lt hkl hNb
    have : k < 105 := (Nat.pow_lt_pow_iff_right (by norm_num)).mp h2k
    omega
  set M : ℕ := rne N s with hM
  obtain ⟨herr1, herr2⟩ := rne_err N s
  have hadj : adjust L = (M + 2 ^ 52 - 1) / 2 ^ 52 := by
    rw [hM, hs, hk, hN]
    simp only [adjust, hfl, mulC103, if_neg hL0]
  set I : ℕ := 103 * L / 100 with hI
  set F : ℕ := 103 * L % 100 with hF
  have hIF : 100 * I + F = 103 * L := Nat.div_add_mod (103 * L) 100
  have hF100 : F < 100 := Nat.mod_lt _ (by norm_num)
  set X : ℕ := F * 2 ^ 52 + 12 * L with hX
  have h100N : 100 * N = 100 * (I * 2 ^ 52) + X := by
    have hc : (100:ℕ) * c103 = 103 * 2 ^ 52 + 12 := by norm_num [c103]
    calc 100 * N = (100 * c103) * L := by rw [hN]; ring
      _ = (103 * 2 ^ 52 + 12) * L := by rw [hc]
      _ = (103 * L) * 2 ^ 52 + 12 * L := by ring
      _ = (100 * I + F) * 2 ^ 52 + 12 * L := by rw [hIF]
      _ = 100 * (I * 2 ^ 52) + (F * 2 ^ 52 + 12 * L) := by ring
      _ = 100 * (I * 2 ^ 52) + X := by rw [hX]
  have hIbound : 100 * I ≤ 103 * L := by omega
  have hceil_eq : ceilExact L = (103 * L + 99) / 100 := rfl
  have h52pos : (0:ℕ) < 2 ^ 52 := by positivity
  rcases Nat.eq_zero_or_pos F with hF0 | hFpos
  · -- `F = 0`: `103 L` is a multiple of 100 and the product rounds down
    -- exactly onto the integer boundary.
    have hdvd : (100:ℕ) ∣ 103 * L := ⟨I, by omega⟩
    have hcop : Nat.Coprime 100 103 := by decide
    have hdvdL : (100:ℕ) ∣ L := hcop.dvd_of_dvd_mul_left hdvd
    obtain ⟨m, hm⟩ := hdvdL
    have hm1 : 1 ≤ m := by omega
    have hIm : I = 103 * m := by
      rw [hm] at hIF
      omega
    have hX12 : X = 100 * (12 * m) := by
      rw [hX, hF0, hm]; ring
    have hNval : N = I * 2 ^ 52 + 12 * m := by omega
    have hdvdT : (2:ℕ) ^ s ∣ I * 2 ^ 52 := (pow_dvd_pow 2 hs52).mul_left I
    have h103m : 103 * m < 2 ^ s * 2 := by
      have e1 : 103 * m * 2 ^ 52 = I * 2 ^ 52 := by rw [hIm]
      have e2 : 2 ^ s * 2 ^ 53 = 2 ^ s * 2 * 2 ^ 52 := by ring
      have hA : 103 * m * 2 ^ 52 < 2 ^ s * 2 * 2 ^ 52 := by omega
      exact Nat.lt_of_mul_lt_mul_right hA
    have h24 : 24 * m < 2 ^ s := by omega
    have hmod : N % 2 ^ s = 12 * m := by
      obtain ⟨c, hc⟩ := hdvdT
      have h12 : 12 * m < 2 ^ s := by omega
      rw [hNval, hc, Nat.mul_add_mod, Nat.mod_eq_of_lt h12]
    have hMval : M = I * 2 ^ 52 := by
      have hd := rne_down N s (by rw [hmod]; omega)
      rw [hmod] at hd
      omega
    have hleft : (I * 2 ^ 52 + 2 ^ 52 - 1) / 2 ^ 52 = I := by
      apply Nat.div_eq_of_lt_le
      · omega
      · have e : (I + 1) * 2 ^ 52 = I * 2 ^ 52 + 2 ^ 52 := by ring
        omega
    have hAval : adjust L = I := by rw [hadj, hMval, hleft]
    have hBval : ceilExact L = I := by
      rw [hceil_eq]
      apply Nat.div_eq_of_lt_le
      · omega
      · have e : (I + 1) * 100 = 100 * I + 100 := by ring
        omega
    exact ⟨by rw [hAval, hBval], by rw [hAval]; omega⟩
  · -- `1 ≤ F ≤ 99`: the exact product sits strictly inside an integer
    -- gap wide enough to absorb the rounding error.
    have hXl : 2 ^ 52 + 12 ≤ X := by
      have hF52 : 1 * 2 ^ 52 ≤ F * 2 ^ 52 := Nat.mul_le_mul_right _ hFpos
      omega
    have hXu : X ≤ 99 * 2 ^ 52 + 12 * L := by
      have hF52 : F * 2 ^ 52 ≤ 99 * 2 ^ 52 := Nat.mul_le_mul_right _ (by omega)
      omega
    have hAleN : I * 2 ^ 52 ≤ N := by omega
    obtain ⟨D, hND⟩ : ∃ D, N = I * 2 ^ 52 + D := ⟨N - I * 2 ^ 52, by omega⟩
    have hXD : X = 100 * D := by omega
    have c2 : 100 * (I * 2 ^ 52) ≤ 103 * L * 2 ^ 52 := by
      have e : 100 * (I * 2 ^ 52) = (100 * I) * 2 ^ 52 := by ring
      rw [e]
      exact Nat.mul_le_mul_right _ hIbound
    have hLb : 103 * L * 2 ^ 52 ≤ 103 * 10 ^ 13 * 2 ^ 52 :=
      Nat.mul_le_mul_right _ (by omega)
    -- lower bound: the rounded value stays strictly above `I * 2 ^ 52`
    have hm2 : (103:ℕ) * 10 ^ 13 * 2 ^ 52 <
        9007199254740991 * (2 ^ 52 + 12) := by norm_num
    have hm3 : (9007199254740991:ℕ) * (2 ^ 52 + 12) ≤
        9007199254740991 * (100 * D) := Nat.mul_le_mul_left _ (by omega)
    have hmkey : 100 * (I * 2 ^ 52) < 9007199254740991 * (100 * D) := by
      have := le_trans c2 hLb
      omega
    have n1 : 100 * 2 ^ s * 2 ^ 52 ≤ 100 * (I * 2 ^ 52) + 100 * D := by
      have h := Nat.mul_le_mul_left 100 hsl
      have e : 100 * 2 ^ s * 2 ^ 52 = 100 * (2 ^ s * 2 ^ 52) := by ring
      omega
    have n2 : 100 * (I * 2 ^ 52) + 100 * D < 200 * D * 2 ^ 52 := by
      have e : 200 * D * 2 ^ 52 = 9007199254740992 * (100 * D) := by
        rw [show (2:ℕ) ^ 52 = 4503599627370496 from by norm_num]
        ring
      omega
    have n4 : 100 * 2 ^ s < 200 * D :=
      Nat.lt_of_mul_lt_mul_right (lt_of_le_of_lt n1 n2)
    have n5 : 2 ^ s < 2 * D := by omega
    have hlow : I * 2 ^ 52 < M := by omega
    -- upper bound: the rounded value stays at most one bar above
    have t2i : 100 * D ≤ 99 * 2 ^ 52 + 12 * L := by omega
    have t2 : 2 * 2 ^ 52 * (100 * D) ≤
        2 * 2 ^ 52 * (99 * 2 ^ 52 + 12 * 10 ^ 13) :=
      Nat.mul_le_mul_left _ (by omega)
    have t4 : 100 * (I * 2 ^ 52) ≤ 103 * 10 ^ 13 * 2 ^ 52 := le_trans c2 hLb
    have t5 : 100 * D ≤ 99 * 2 ^ 52 + 12 * 10 ^ 13 := by omega
    have t6 : (2:ℕ) * 2 ^ 52 * (99 * 2 ^ 52 + 12 * 10 ^ 13) +
        103 * 10 ^ 13 * 2 ^ 52 + (99 * 2 ^ 52 + 12 * 10 ^ 13) ≤
        100 * 2 ^ 105 := by norm_num
    have star : 2 * 2 ^ 52 * D + I * 2 ^ 52 + D ≤ 2 ^ 105 := by
      have t1 : 100 * (2 * 2 ^ 52 * D + I * 2 ^ 52 + D) =
          2 * 2 ^ 52 * (100 * D) + 100 * (I * 2 ^ 52) + 100 * D := by ring
      have h100 : 100 * (2 * 2 ^ 52 * D + I * 2 ^ 52 + D) ≤ 100 * 2 ^ 105 := by
        rw [t1]
        exact le_trans (add_le_add (add_le_add t2 t4) t5) t6
      exact Nat.le_of_mul_le_mul_left h100 (by norm_num)
    have g1 : (2 * D + 2 ^ s) * 2 ^ 52 = 2 * 2 ^ 52 * D + 2 ^ s * 2 ^ 52 := by
      ring
    have g3 : (2 * D + 2 ^ s) * 2 ^ 52 ≤ 2 ^ 53 * 2 ^ 52 := by
      have e : (2:ℕ) ^ 105 = 2 ^ 53 * 2 ^ 52 := by norm_num
      omega
    have g4 : 2 * D + 2 ^ s ≤ 2 ^ 53 :=
      Nat.le_of_mul_le_mul_right g3 h52pos
    have hup : M ≤ (I + 1) * 2 ^ 52 := by
      have e53 : (2:ℕ) ^ 53 = 2 * 2 ^ 52 := by norm_num
      have e : (I + 1) * 2 ^ 52 = I * 2 ^ 52 + 2 ^ 52 := by ring
      omega
    have hceilM : (M + 2 ^ 52 - 1) / 2 ^ 52 = I + 1 :=
      ceil_div_between I (2 ^ 52) M h52pos hlow hup
    have hAval : adjust L = I + 1 := by rw [hadj, hceilM]
    have hBval : ceilExact L = I + 1 := by
      rw [hceil_eq]
      apply Nat.div_eq_of_lt_le
      · have e : (I + 1) * 100 = 100 * I + 100 := by ring
        omega
      · have e : (I + 1 + 1) * 100 = 100 * I + 200 := by ring
        omega
    exact ⟨by rw [hAval, hBval], by rw [hAval]; omega⟩

set_option maxRecDepth 10000 in
/-- C9 counterexample: the claim asserts `adjust(L, 1.03) = ceil(L * 1.03)`
in exact arithmetic for *every* positive `L`, but `WASTE_FACTOR` is the
binary64 value `4638707616191611 / 2 ^ 52 > 1.03`, and at
`L = 10 ^ 16 + 2` (exactly representable in binary64) the product rounds
down to the even significand `10300000000000002.0`, whose ceiling
`10300000000000002` falls one short of the exact
`⌈103 L / 100⌉ = 10300000000000003`. -/
theorem c9_cex :
    adjust 10000000000000002 = 10300000000000002 ∧
      ceilExact 10000000000000002 = 10300000000000003 ∧
      adjust 10000000000000002 ≠ ceilExact 10000000000000002 := by
  have hadj : adjust 10000000000000002 = 10300000000000002 := by decide
  have hex : ceilExact 10000000000000002 = 10300000000000003 := by decide
  refine ⟨hadj, hex, ?_⟩
  rw [hadj, hex]
  decide

/-- C9 witness: the amended statement evaluated at `L = 2000` (the spec's
own example: a 2000 mm cut becomes 2060 mm effective). -/
theorem c9_witness : adjust 2000 = ceilExact 2000 ∧ 2000 ≤ adjust 2000 :=
  c9_amended 2000 (by decide) (by decide)

end MaterialOptimiser
